import Mathlib

/-!
Verification development for the qwen3-semantic-search repository.

The definitions below are shallow embeddings of the TypeScript sources:
`src/App.tsx` (bank synchronization, search ranking, relevance tiers,
custom-bank creation), `src/components/MemoryVisualizer.tsx` (neighbor-graph
construction), `src/memory/indexeddb.ts` (lazy coalesced database handle,
record store) and `src/memory/embedding.ts` (lazy coalesced model instance,
degenerate-input handling).  JavaScript numbers are modelled as rationals,
mutable module state as explicit state passing, and asynchronous effects as
an explicit operation log.
-/

namespace QwenSearch

/-! ### JavaScript string primitives

The sources are JavaScript; `String.prototype.trim`,
`String.prototype.toLowerCase` and `split('\n')` are embedded as structural
functions on the character list so that concrete instances evaluate. -/

/-- `s.trim()`: strip leading and trailing whitespace. -/
def jsTrim (s : String) : String :=
  ⟨((s.data.dropWhile Char.isWhitespace).reverse.dropWhile Char.isWhitespace).reverse⟩

/-- `s.toLowerCase()` (ASCII case mapping suffices for the texts in play). -/
def jsToLower (s : String) : String := ⟨s.data.map Char.toLower⟩

/-- Accumulator form of `split('\n')`. -/
def jsSplitLinesAux : List Char → List Char → List String
  | cur, [] => [⟨cur.reverse⟩]
  | cur, c :: cs =>
    if c = '\n' then ⟨cur.reverse⟩ :: jsSplitLinesAux [] cs
    else jsSplitLinesAux (c :: cur) cs

/-- `s.split('\n')`: every newline splits, empty pieces kept. -/
def jsSplitLines (s : String) : List String := jsSplitLinesAux [] s.data

/-! ### Similarity engine

`src/memory/similarity.ts` is not among the provided sources (only its
callers are), so `cosineSimilarity` is modelled from the spec. -/

/-- Dot product of two vectors, pairing componentwise like the loop over
`Math.min(a.length, b.length)` entries. -/
def dot (a b : List ℚ) : ℚ := ((a.zip b).map fun p => p.1 * p.2).sum

/-- Squared Euclidean magnitude. -/
def normSq (a : List ℚ) : ℚ := dot a a

/-- Modelled from the spec: `cosineSimilarity` is implemented in
`src/memory/similarity.ts`, which is absent from the sources.  Spec §4.4:
`dot(a,b) / (|a|·|b|)`, defined as `0` when either vector's magnitude is `0`.
Since `|a|·|b| = sqrt(normSq a * normSq b)`, the magnitude product is taken
with `Rat.sqrt`, which is exact whenever `normSq a * normSq b` is a perfect
square; every concrete vector used below has that property. -/
def cosineSimilarity (a b : List ℚ) : ℚ :=
  if normSq a = 0 ∨ normSq b = 0 then 0 else dot a b / Rat.sqrt (normSq a * normSq b)

/-! ### Relevance classification (`getRelevance`, App.tsx lines 197-201) -/

/-- `getRelevance` from `App.tsx`: `score > 0.49` yields `'high-relevance'`,
`score > 0.38` yields `'medium-relevance'`, anything else `'low-relevance'`. -/
def getRelevance (score : ℚ) : String :=
  if score > 49/100 then "high-relevance"
  else if score > 38/100 then "medium-relevance"
  else "low-relevance"

/-! ### Persistent store model

Records live in the `memories` collection; `getRecordsByBank` is the
secondary-index equality lookup, `clearRecordsByBank` deletes every record of
one bank, `addRecord` appends (auto-increment ids make iteration order equal
insertion order, the positional-alignment assumption both the spec (§9) and
the code rely on). -/

/-- One persisted record of the `memories` collection. -/
structure MemRecord where
  bank : String
  text : String
  embedding : List ℚ
deriving DecidableEq, Repr

/-- Observable store/provider effects, logged in execution order. -/
inductive StoreOp where
  | clearBank (bank : String)
  | add (r : MemRecord)
  | embedCall (texts : List String)
  | saveBank (name : String) (content : List String)
deriving DecidableEq, Repr

/-- `getRecordsByBank`: all records whose `bank` field equals the argument,
in insertion order. -/
def getRecordsByBank (store : List MemRecord) (bank : String) : List MemRecord :=
  store.filter fun r => r.bank == bank

/-- The staleness test of the startup path (`setup`, App.tsx line 302):
`cachedRecords.length !== bankData.length || !cachedRecords.every((r, i) => r.text === bankData[i])`. -/
def needsGeneration (cached : List MemRecord) (content : List String) : Bool :=
  cached.length != content.length || !((cached.zip content).all fun rc => rc.1.text == rc.2)

/-- The records inserted when a bank is regenerated: one per content entry,
in content order, tagged with the bank name, with the embedding the provider
returned at the same position. -/
def newRecords (bank : String) (content : List String)
    (embed : List String → List (List ℚ)) : List MemRecord :=
  content.enum.map fun p => ⟨bank, p.2, (embed content).getD p.1 []⟩

/-- The startup synchronization of one bank (`setup`, App.tsx lines 299-313):
fetch cached records, regenerate when `needsGeneration`, otherwise leave the
store untouched.  Returns the resulting store and the logged effects.  The
`(embed content).isEmpty` branch mirrors the code's
`Array.isArray(embeddings) && Array.isArray(embeddings[0])` guard. -/
def syncBank (store : List MemRecord) (bank : String) (content : List String)
    (embed : List String → List (List ℚ)) : List MemRecord × List StoreOp :=
  let cached := getRecordsByBank store bank
  if needsGeneration cached content then
    let store1 := store.filter fun r => !(r.bank == bank)
    if (embed content).isEmpty then
      (store1, [StoreOp.clearBank bank, StoreOp.embedCall content])
    else
      (store1 ++ newRecords bank content embed,
        StoreOp.clearBank bank :: StoreOp.embedCall content ::
          (newRecords bank content embed).map StoreOp.add)
  else (store, [])

/-- The bank-change synchronization (`loadBank`, App.tsx lines 362-382).  Its
staleness test is `cachedRecords.length !== currentBankContent.length` only;
the regeneration branch is the same delete-then-reinsert as in `setup`. -/
def syncBankLoad (store : List MemRecord) (bank : String) (content : List String)
    (embed : List String → List (List ℚ)) : List MemRecord × List StoreOp :=
  let cached := getRecordsByBank store bank
  if cached.length != content.length then
    let store1 := store.filter fun r => !(r.bank == bank)
    if (embed content).isEmpty then
      (store1, [StoreOp.clearBank bank, StoreOp.embedCall content])
    else
      (store1 ++ newRecords bank content embed,
        StoreOp.clearBank bank :: StoreOp.embedCall content ::
          (newRecords bank content embed).map StoreOp.add)
  else (store, [])

/-- The staleness predicate exactly as the spec words it (§4.2 step 2):
stale iff `count(existing) != count(content)`, or some position `i` has
`existing[i].text != content[i]`. -/
def staleSpec (cached : List MemRecord) (content : List String) : Prop :=
  cached.length ≠ content.length ∨
    ∃ i : Fin cached.length,
      i.1 < content.length ∧ (cached.get i).text ≠ content.getD i.1 ""

instance (cached : List MemRecord) (content : List String) :
    Decidable (staleSpec cached content) := by
  unfold staleSpec
  infer_instance

/-! ### Neighbor-graph construction (`MemoryVisualizer.tsx` lines 70-105)

The similarity matrix has `0` on the diagonal (no self loops); each node's
connection list is built by the loop at lines 93-105: take `Math.max` of a
scratch copy of the row, stop when it is `<= 0.1`, look up
`similarityMatrix[id].indexOf(maxSim)` — the ORIGINAL row, not the scratch
copy — push that index and overwrite the scratch copy at it with `-1`. -/

/-- `Math.max(...l)` for a list the code has already checked to be nonempty
(the `similarities.length === 0` guard fires first). -/
def maxQ : List ℚ → ℚ
  | [] => 0
  | x :: xs => xs.foldl max x

/-- The connection-building loop body (`MemoryVisualizer.tsx` lines 94-105),
with the loop counter as fuel, the original row `orig` kept for the
`indexOf` lookup, and `work` as the scratch copy `similarities`. -/
def connectionsAux (orig : List ℚ) : ℕ → List ℚ → List ℕ
  | 0, _ => []
  | fuel + 1, work =>
    if work.isEmpty then []
    else if maxQ work ≤ 1/10 then []
    else orig.indexOf (maxQ work) ::
      connectionsAux orig fuel (work.set (orig.indexOf (maxQ work)) (-1))

/-- One node's connection list: the loop runs `MAX_CONNECTIONS = 3` times on
a fresh copy of the row. -/
def connections (row : List ℚ) : List ℕ :=
  connectionsAux row 3 row

/-- Row `id` of the similarity matrix (`MemoryVisualizer.tsx` lines 72-82):
`0` at the diagonal, `cosineSimilarity` elsewhere. -/
def simRow (embs : List (List ℚ)) (id : ℕ) : List ℚ :=
  embs.enum.map fun p => if p.1 = id then 0 else cosineSimilarity (embs.getD id []) p.2

/-- First candidate with the maximal similarity, scanning in list order
(ties keep the earliest, i.e. lowest-index, candidate: a later candidate
replaces the current best only when strictly greater). -/
def bestCand : List (ℕ × ℚ) → Option (ℕ × ℚ)
  | [] => none
  | c :: cs =>
    match bestCand cs with
    | none => some c
    | some b => if b.2 > c.2 then some b else some c

/-- The selection procedure as the claim words it: repeatedly select the
currently-maximum remaining similarity among candidates not yet selected
(ties: lowest index first), append it if it exceeds the threshold, remove
the selected candidate from further consideration, up to `fuel` times. -/
def connectionsSpecAux : ℕ → List (ℕ × ℚ) → List ℕ
  | 0, _ => []
  | fuel + 1, cands =>
    match bestCand cands with
    | none => []
    | some c =>
      if c.2 ≤ 1/10 then []
      else c.1 :: connectionsSpecAux fuel (cands.filter fun d => d.1 ≠ c.1)

/-- The claim's description of the neighbor-list construction: greedy top-3
selection with removal of each selected candidate. -/
def connectionsSpec (row : List ℚ) : List ℕ :=
  connectionsSpecAux 3 row.enum

/-! ### Lazy coalesced singletons (`indexeddb.ts` lines 13-62,
`embedding.ts` lines 19-94)

The module-level mutable variables are modelled as explicit state; in-flight
promises are identified by numbers.  `openDBStep`/`getInstanceStep` are what
one call of `openDB`/`getInstance` does to the cached state (`fresh` names
the promise a call would create if none is cached); `onOpenError`,
`onInitSuccess`, `onInitFailure` are the state updates the promise executors
perform on completion. -/

/-- What a call of `openDB` observes: the promise it returns. -/
def openDBStep (dbPromise : Option ℕ) (fresh : ℕ) : Option ℕ × ℕ :=
  match dbPromise with
  | some p => (some p, p)
  | none => (some fresh, fresh)

/-- `request.onsuccess` resolves the promise and leaves `dbPromise` cached. -/
def onOpenSuccess (dbPromise : Option ℕ) : Option ℕ := dbPromise

/-- `request.onerror` (indexeddb.ts line 56): `dbPromise = null`. -/
def onOpenError (_ : Option ℕ) : Option ℕ := none

/-- Module state of `embedding.ts`: `instance` and `instancePromise`. -/
structure EmbedModuleState where
  inst : Option ℕ
  instPromise : Option ℕ
deriving DecidableEq, Repr

/-- What one `getInstance` call returns. -/
inductive GetInstanceResult where
  | cachedInstance (i : ℕ)
  | promise (p : ℕ)
deriving DecidableEq, Repr

/-- One call of `getInstance` (embedding.ts lines 47-94): return the cached
instance if present, else join the cached in-flight promise, else start a
new one and cache it. -/
def getInstanceStep (s : EmbedModuleState) (fresh : ℕ) :
    EmbedModuleState × GetInstanceResult :=
  match s.inst with
  | some i => (s, .cachedInstance i)
  | none =>
    match s.instPromise with
    | some p => (s, .promise p)
    | none => ({ s with instPromise := some fresh }, .promise fresh)

/-- Successful initialization (embedding.ts line 82): `instance = {model, tokenizer}`. -/
def onInitSuccess (s : EmbedModuleState) (i : ℕ) : EmbedModuleState :=
  { s with inst := some i }

/-- Failed initialization (embedding.ts line 87): `instancePromise = null`,
`instance` untouched. -/
def onInitFailure (s : EmbedModuleState) : EmbedModuleState :=
  { s with instPromise := none }

/-! ### Embedding generation (`embedding.ts` lines 96-152)

`generateEmbedding` on a single string.  The external model pipeline
(tokenizer, model, `last_token_pool`) is a parameter `pool` producing the
pooled vector, with `Option ℚ` components where `none` stands for a
not-a-number float; the external tensor normalization is a parameter
`norm`.  `cfgHidden` is `(model.config as any).hidden_size`, which the code
reads with a `|| 384` fallback (so `undefined` and the falsy `0` both become
384). -/

/-- Embedding options, each `none` when the caller omitted the field. -/
structure EmbedOptions where
  normalize : Option Bool := none
  truncate : Option Bool := none
deriving DecidableEq, Repr

/-- `(model.config as any).hidden_size || 384`. -/
def hiddenSizeOf (cfgHidden : Option ℕ) : ℕ :=
  match cfgHidden with
  | some n => if n = 0 then 384 else n
  | none => 384

/-- `generateEmbedding` for one string (`embedding.ts` lines 111-147):
empty-after-trim input returns a zero vector of the native dimensionality;
a pooled result with a not-a-number component returns a zero vector (of the
truncated dimensionality when truncation is on); otherwise the pooled values
are truncated to 256 when `options?.truncate !== false` and normalized when
`options?.normalize !== false`. -/
def generateEmbedding1 (pool : String → List (Option ℚ)) (norm : List ℚ → List ℚ)
    (cfgHidden : Option ℕ) (opts : EmbedOptions) (text : String) : List ℚ :=
  if jsTrim text = "" then List.replicate (hiddenSizeOf cfgHidden) 0
  else
    let pooled := pool text
    if pooled.any (·.isNone) then
      List.replicate (if opts.truncate ≠ some false then 256 else hiddenSizeOf cfgHidden) 0
    else
      let vals := pooled.map (·.getD 0)
      let truncated := if opts.truncate ≠ some false then vals.take 256 else vals
      if opts.normalize ≠ some false then norm truncated else truncated

/-! ### Search ranking (`handleSearch`, App.tsx lines 413-423)

`results.sort((a, b) => b.score - a.score)` is the engine's stable sort
under a descending-score comparator; any stable sorting algorithm realizes
the same output, so it is embedded as a stable insertion sort: an element is
inserted after every element of strictly greater key and before the first
element of smaller-or-equal key. -/

/-- Stable descending insertion. -/
def insertDescBy {α : Type} (key : α → ℚ) (x : α) : List α → List α
  | [] => [x]
  | y :: ys => if key x < key y then y :: insertDescBy key x ys else x :: y :: ys

/-- Stable descending insertion sort. -/
def sortDescBy {α : Type} (key : α → ℚ) : List α → List α
  | [] => []
  | x :: xs => insertDescBy key x (sortDescBy key xs)

/-- `handleSearch` after the query embedding resolved: score every record of
the active bank against the query and sort descending by score. -/
def handleSearch (queryEmbedding : List ℚ) (texts : List String)
    (embs : List (List ℚ)) : List (String × ℚ) :=
  sortDescBy Prod.snd
    (texts.enum.map fun p => (p.2, cosineSimilarity queryEmbedding (embs.getD p.1 [])))

/-! ### Custom-bank creation (`CustomBankModal.handleSave`, App.tsx lines
31-65, and `handleSaveCustomBank`, lines 435-460) -/

/-- Outcome of the modal's `handleSave` validation. -/
inductive ModalResult where
  | rejected (msg : String)
  | accepted (trimmedName : String) (inputText : String)
deriving DecidableEq, Repr

/-- `inputText.split('\n').filter(line => line.trim() !== '')`. -/
def nonEmptyLines (s : String) : List String :=
  (jsSplitLines s).filter fun l => jsTrim l ≠ ""

/-- The modal's validation (App.tsx lines 31-50): empty trimmed name, a
case-insensitively taken name, empty content, and more than 20 non-empty
lines are rejected, in that order; otherwise `onSave` is invoked. -/
def handleSave (bankName inputText : String) (existingNames : List String) : ModalResult :=
  let trimmedName := jsTrim bankName
  if trimmedName = "" then .rejected "Bank name cannot be empty."
  else if existingNames.contains (jsToLower trimmedName) then
    .rejected "This name is already taken. Please choose another."
  else
    let lines := nonEmptyLines inputText
    if lines.length = 0 then .rejected "Bank content cannot be empty."
    else if lines.length > 20 then .rejected "You can add a maximum of 20 facts."
    else .accepted trimmedName inputText

/-- Outcome of the whole creation flow. -/
inductive CreateOutcome where
  | rejected (msg : String)
  | noContent
  | saved (name : String) (content : List String)
  | embedFormatError (name : String)
deriving DecidableEq, Repr

/-- `text.split('\n').map(line => line.trim()).filter(Boolean)`. -/
def trimmedLines (s : String) : List String :=
  ((jsSplitLines s).map jsTrim).filter fun l => l ≠ ""

/-- `handleSaveCustomBank` (App.tsx lines 435-460): derive the content,
return silently when it is empty, otherwise embed the whole content, save
the bank metadata, then insert one record per entry — throwing after the
save when the provider's result is not an array of arrays. -/
def handleSaveCustomBank (name text : String)
    (embed : List String → List (List ℚ)) : CreateOutcome × List StoreOp :=
  let c := trimmedLines text
  if c.length = 0 then (.noContent, [])
  else
    let embeddings := embed c
    if embeddings.isEmpty then
      (.embedFormatError name, [StoreOp.embedCall c, StoreOp.saveBank name c])
    else
      (.saved name c,
        StoreOp.embedCall c :: StoreOp.saveBank name c ::
          c.enum.map fun p => StoreOp.add ⟨name, p.2, embeddings.getD p.1 []⟩)

/-- The full creation pipeline: the modal validates against
`availableBanks.map(b => b.toLowerCase())` (App.tsx line 547) and only an
accepted save reaches `handleSaveCustomBank`. -/
def createCustomBank (bankName inputText : String) (availableBanks : List String)
    (embed : List String → List (List ℚ)) : CreateOutcome × List StoreOp :=
  match handleSave bankName inputText (availableBanks.map jsToLower) with
  | .rejected m => (.rejected m, [])
  | .accepted tn txt => handleSaveCustomBank tn txt embed

/-- The built-in banks (`Object.keys(memoryBanks)`, banks.ts). -/
def builtinBanks : List String := ["General", "Programming", "Science"]

/-- Effect of `saveCustomBank` (indexeddb.ts line 220) on the name set of
the `custom_banks` collection: `put` is keyed on `name`, so an existing name
replaces its record and adds no key, while a new name adds one. -/
def putName (db : List String) (name : String) : List String :=
  if db.contains name then db else db ++ [name]

/-- Joint states `(availableBanks, persisted custom-bank names)` can reach:
the fresh install (`useState(Object.keys(memoryBanks))`, App.tsx line 186,
with an empty `custom_banks` collection); appending a custom bank the modal
accepted, which also `put`s it into the collection (App.tsx lines 441, 451);
deleting a custom bank from the collection and the list (App.tsx lines 471,
481 — the delete control only renders for names outside `memoryBanks`,
App.tsx line 624, hence the `d ∉ builtinBanks` guard); and an app restart,
whose setup merges the built-ins with the persisted names
(`[...Object.keys(memoryBanks), ...customBankNames]`, App.tsx lines 321-323).
`getAllCustomBankNames` reads `getAllKeys`, which yields the persisted names
in key order, so the restart rule admits any reordering of them; when the
collection is empty, setup skips the set, which the rule also covers since
`builtinBanks ++ []` is the initial list. -/
inductive AvailReachable : List String → List String → Prop where
  | init : AvailReachable builtinBanks []
  | save {banks db : List String} {name text tn txt : String} :
      AvailReachable banks db →
      handleSave name text (banks.map jsToLower) = .accepted tn txt →
      AvailReachable (banks ++ [tn]) (putName db tn)
  | del {banks db : List String} (d : String) :
      d ∉ builtinBanks →
      AvailReachable banks db →
      AvailReachable (banks.filter fun b => b ≠ d) (db.filter fun b => b ≠ d)
  | restart {banks db names : List String} :
      AvailReachable banks db →
      names.Perm db →
      AvailReachable (builtinBanks ++ names) db

/-- Invariant tying the code's scratch copy `work` to the claim's remaining
candidate list `cands` over the original row `orig`: every candidate holds a
genuine row value, and each position is either still live in both views or
selected (cleared to `-1` in `work`, absent from `cands`). -/
def RowInv (orig work : List ℚ) (cands : List (ℕ × ℚ)) : Prop :=
  work.length = orig.length ∧
  (∀ p ∈ cands, ∃ h : p.1 < orig.length, p.2 = orig[p.1]) ∧
  (∀ i (h : i < orig.length),
    ((i, orig[i]) ∈ cands ∧ work[i]? = some orig[i]) ∨
    ((∀ v, (i, v) ∉ cands) ∧ work[i]? = some (-1)))

/-! ## Theorems -/

/-- C9: the relevance classification returns high exactly when
`score > 0.49`, medium exactly when `0.38 < score ≤ 0.49`, and low
otherwise; the two thresholds are the fixed constants `0.49` and `0.38`. -/
theorem relevance_tier_thresholds (s : ℚ) :
    (getRelevance s = "high-relevance" ↔ 49/100 < s) ∧
    (getRelevance s = "medium-relevance" ↔ 38/100 < s ∧ s ≤ 49/100) ∧
    (getRelevance s = "low-relevance" ↔ s ≤ 38/100) := by
  unfold getRelevance
  split_ifs with h1 h2
  all_goals refine ⟨?_, ?_, ?_⟩
  all_goals simp_all
  all_goals linarith

/-- C5: both the store connection (`openDB`) and the embedding-model
instance (`getInstance`) are lazily initialized coalesced singletons:
a first call starts and caches an in-flight operation, callers arriving
while it is cached join it unchanged, a successful initialization is reused
by every later call, and a failure clears the cache so the next call starts
a fresh operation instead of replaying the failed one. -/
theorem lazy_singletons_coalesced :
    (∀ f : ℕ, openDBStep none f = (some f, f)) ∧
    (∀ p f : ℕ, openDBStep (some p) f = (some p, p)) ∧
    (∀ p f : ℕ, openDBStep (onOpenSuccess (some p)) f = (some p, p)) ∧
    (∀ s f, openDBStep (onOpenError s) f = (some f, f)) ∧
    (∀ f : ℕ, getInstanceStep ⟨none, none⟩ f = (⟨none, some f⟩, .promise f)) ∧
    (∀ p f : ℕ, getInstanceStep ⟨none, some p⟩ f = (⟨none, some p⟩, .promise p)) ∧
    (∀ s i f, getInstanceStep (onInitSuccess s i) f =
      (onInitSuccess s i, .cachedInstance i)) ∧
    (∀ p f : ℕ, getInstanceStep (onInitFailure ⟨none, some p⟩) f =
      (⟨none, some f⟩, .promise f)) :=
  ⟨fun _ => rfl, fun _ _ => rfl, fun _ _ => rfl, fun _ _ => rfl,
   fun _ => rfl, fun _ _ => rfl, fun _ _ _ => rfl, fun _ _ => rfl⟩

/-- C6: an empty (or whitespace-only) input yields a zero vector of the
provider's native dimensionality without error, and a pooled result with a
not-a-number component is replaced by a zero vector instead of being
returned or raised. -/
theorem degenerate_inputs_zero_vector (pool : String → List (Option ℚ))
    (norm : List ℚ → List ℚ) (cfgHidden : Option ℕ) (opts : EmbedOptions)
    (text : String) :
    (jsTrim text = "" →
      generateEmbedding1 pool norm cfgHidden opts text =
        List.replicate (hiddenSizeOf cfgHidden) 0) ∧
    (jsTrim text ≠ "" → (pool text).any (·.isNone) = true →
      generateEmbedding1 pool norm cfgHidden opts text =
        List.replicate (if opts.truncate ≠ some false then 256
          else hiddenSizeOf cfgHidden) 0) := by
  constructor
  · intro h
    simp [generateEmbedding1, h]
  · intro h hnan
    simp [generateEmbedding1, h, hnan]

/-- Witness for C6 at concrete inputs: the whitespace-only text `"  "`
yields 1024 zeros for native size 1024, and a pooled vector containing a
not-a-number yields 256 zeros under default options. -/
theorem degenerate_inputs_zero_vector_witness :
    generateEmbedding1 (fun _ => [some 1, none]) id (some 1024) {} "  " =
      List.replicate 1024 0 ∧
    generateEmbedding1 (fun _ => [some 1, none]) id (some 1024) {} "hi" =
      List.replicate 256 0 := by
  have e : (if ({} : EmbedOptions).truncate ≠ some false then (256 : ℕ)
      else hiddenSizeOf (some 1024)) = 256 := by decide
  exact ⟨(degenerate_inputs_zero_vector _ _ _ _ _).1 (by decide),
    e ▸ (degenerate_inputs_zero_vector (fun _ => [some 1, none]) id
      (some 1024) {} "hi").2 (by decide) (by decide)⟩

/-- Helper: a record list always text-matches itself entrywise. -/
theorem zip_map_text_all (l : List MemRecord) :
    ((l.zip (l.map (·.text))).all fun rc => rc.1.text == rc.2) = true := by
  induction l with
  | nil => rfl
  | cons a l ih => simpa using ih

/-- Helper: a bank whose content equals its cached texts is not stale. -/
theorem needsGeneration_map_text (cached : List MemRecord) :
    needsGeneration cached (cached.map (·.text)) = false := by
  simp [needsGeneration, zip_map_text_all]

/-- C4: synchronizing a bank whose cached records already match its declared
content performs zero store writes on both synchronization paths: no record
is deleted, none is inserted, no embedding is requested (the operation log is
empty) and the store is returned unchanged. -/
theorem unchanged_bank_zero_writes (store : List MemRecord) (bank : String)
    (content : List String) (embed : List String → List (List ℚ))
    (h : (getRecordsByBank store bank).map (·.text) = content) :
    syncBank store bank content embed = (store, []) ∧
    syncBankLoad store bank content embed = (store, []) := by
  subst h
  constructor
  · simp [syncBank, needsGeneration_map_text]
  · simp [syncBankLoad]

/-- Witness for C4 at a concrete matching store. -/
theorem unchanged_bank_zero_writes_witness :
    syncBank [⟨"B", "a", [1]⟩] "B" ["a"] (fun _ => [[1]]) = ([⟨"B", "a", [1]⟩], []) ∧
    syncBankLoad [⟨"B", "a", [1]⟩] "B" ["a"] (fun _ => [[1]]) = ([⟨"B", "a", [1]⟩], []) :=
  unchanged_bank_zero_writes _ _ _ _ (by decide)

/-- Counterexample to C1 as stated: a bank whose single cached record has a
different text but the same count is stale by the claimed predicate (and the
startup path would regenerate it), yet the bank-change path `loadBank`
performs no write at all. -/
theorem loadBank_counterexample :
    staleSpec (getRecordsByBank [⟨"B", "a", [1]⟩] "B") ["b"] ∧
    needsGeneration (getRecordsByBank [⟨"B", "a", [1]⟩] "B") ["b"] = true ∧
    syncBankLoad [⟨"B", "a", [1]⟩] "B" ["b"] (fun _ => [[1]]) = ([⟨"B", "a", [1]⟩], []) :=
  ⟨by decide, by decide, by decide⟩

/-- C1 (amended): the startup synchronization path treats a bank as stale
exactly when the record count differs from the content count or some
position's text differs; the bank-change path (`loadBank`) regenerates
exactly when the counts differ, so equal-count text changes do not trigger
regeneration there. -/
theorem staleness_predicate_paths :
    (∀ (cached : List MemRecord) (content : List String),
      needsGeneration cached content = true ↔ staleSpec cached content) ∧
    (∀ (store : List MemRecord) (bank : String) (content : List String)
      (embed : List String → List (List ℚ)),
      (syncBankLoad store bank content embed).2 ≠ [] ↔
        (getRecordsByBank store bank).length ≠ content.length) := by
  constructor
  · intro cached content
    unfold needsGeneration staleSpec
    rw [Bool.or_eq_true, bne_iff_ne, Bool.not_eq_true']
    constructor
    · rintro (hlen | hall)
      · exact Or.inl hlen
      · obtain ⟨⟨r, t⟩, hmem, hne⟩ := List.all_eq_false.mp hall
        obtain ⟨i, hi, hget⟩ := List.mem_iff_getElem.mp hmem
        rw [List.getElem_zip] at hget
        have hi1 : i < cached.length := lt_of_lt_of_le hi (by simp [List.length_zip])
        have hi2 : i < content.length := lt_of_lt_of_le hi (by simp [List.length_zip])
        refine Or.inr ⟨⟨i, hi1⟩, hi2, ?_⟩
        have h1 : cached[i] = r := (Prod.mk.injEq _ _ _ _ ▸ hget).1
        have h2 : content[i] = t := (Prod.mk.injEq _ _ _ _ ▸ hget).2
        simp only [List.get_eq_getElem, h1]
        rw [List.getD_eq_getElem?_getD, List.getElem?_eq_getElem hi2, Option.getD_some, h2]
        simpa using hne
    · rintro (hlen | ⟨⟨i, hi⟩, hic, hne⟩)
      · exact Or.inl hlen
      · by_cases hlen : cached.length = content.length
        · refine Or.inr (List.all_eq_false.mpr ?_)
          refine ⟨(cached[i], content[i]), ?_, ?_⟩
          · rw [List.mem_iff_getElem]
            exact ⟨i, by simp [List.length_zip, hlen, hi, hic], by rw [List.getElem_zip]⟩
          · simp only [List.get_eq_getElem] at hne
            rw [List.getD_eq_getElem?_getD, List.getElem?_eq_getElem hic, Option.getD_some] at hne
            simpa using hne
        · exact Or.inl hlen
  · intro store bank content embed
    unfold syncBankLoad
    by_cases hlen : (getRecordsByBank store bank).length = content.length
    · simp [hlen]
    · have hb : ((getRecordsByBank store bank).length != content.length) = true := by
        simpa using hlen
      simp only [hb, if_true]
      split <;> simp [hlen]

/-- Helper: after `clearRecordsByBank`, a bank lookup is empty. -/
theorem getRecordsByBank_filter_out (store : List MemRecord) (bank : String) :
    getRecordsByBank (store.filter fun r => !(r.bank == bank)) bank = [] := by
  unfold getRecordsByBank
  rw [List.filter_filter]
  exact List.filter_eq_nil_iff.mpr (fun r _ => by cases h : r.bank == bank <;> simp [h])

/-- Helper: regenerated records are tagged with the bank name. -/
theorem newRecords_bank_tag (bank : String) (content : List String)
    (embed : List String → List (List ℚ)) :
    ∀ r ∈ newRecords bank content embed, r.bank = bank := by
  intro r hr
  obtain ⟨p, _, rfl⟩ := List.mem_map.mp hr
  rfl

/-- Helper: a bank lookup keeps all regenerated records. -/
theorem getRecordsByBank_newRecords (bank : String) (content : List String)
    (embed : List String → List (List ℚ)) :
    getRecordsByBank (newRecords bank content embed) bank = newRecords bank content embed := by
  unfold getRecordsByBank
  exact List.filter_eq_self.mpr fun r hr => by
    rw [newRecords_bank_tag bank content embed r hr]; simp

/-- Helper: regenerated records carry the content texts in order. -/
theorem newRecords_map_text (bank : String) (content : List String)
    (embed : List String → List (List ℚ)) :
    (newRecords bank content embed).map (·.text) = content := by
  unfold newRecords
  rw [List.map_map]
  have : ((fun r : MemRecord => r.text) ∘ fun p : ℕ × String => (⟨bank, p.2, (embed content).getD p.1 []⟩ : MemRecord)) = Prod.snd := rfl
  rw [this, List.enum_eq_enumFrom, List.enumFrom_map_snd]

/-- Helper: one regenerated record per content entry. -/
theorem newRecords_length (bank : String) (content : List String)
    (embed : List String → List (List ℚ)) :
    (newRecords bank content embed).length = content.length := by
  have := congrArg List.length (newRecords_map_text bank content embed)
  simpa using this

/-- C3: whenever a bank is found stale, all its records are deleted, the
embeddings for the entire content list are requested in one provider call
preserving order, and exactly one record per content entry is inserted in
content order tagged with the bank name. -/
theorem stale_bank_full_regeneration (store : List MemRecord) (bank : String)
    (content : List String) (embed : List String → List (List ℚ))
    (hst : needsGeneration (getRecordsByBank store bank) content = true)
    (hne : embed content ≠ []) :
    (syncBank store bank content embed).2 =
      StoreOp.clearBank bank :: StoreOp.embedCall content ::
        (newRecords bank content embed).map StoreOp.add ∧
    getRecordsByBank (syncBank store bank content embed).1 bank =
      newRecords bank content embed ∧
    (newRecords bank content embed).map (·.text) = content ∧
    ∀ r ∈ newRecords bank content embed, r.bank = bank := by
  have hemp : (embed content).isEmpty = false := by
    cases h : embed content with
    | nil => exact absurd h hne
    | cons a l => rfl
  refine ⟨?_, ?_, newRecords_map_text bank content embed, newRecords_bank_tag bank content embed⟩
  · simp [syncBank, hst, hemp]
  · simp only [syncBank, hst, hemp, if_true, Bool.false_eq_true, if_false]
    unfold getRecordsByBank
    rw [List.filter_append]
    have h1 := getRecordsByBank_filter_out store bank
    have h2 := getRecordsByBank_newRecords bank content embed
    unfold getRecordsByBank at h1 h2
    rw [h1, h2, List.nil_append]

/-- Witness for C3: changing exactly one entry of a 5-entry bank deletes all
5 records and re-inserts 5 fresh ones — not a single-record patch. -/
theorem stale_bank_full_regeneration_witness :
    (syncBank
      [⟨"B", "a", [1]⟩, ⟨"B", "b", [1]⟩, ⟨"B", "c", [1]⟩, ⟨"B", "d", [1]⟩, ⟨"B", "e", [1]⟩]
      "B" ["a", "b", "c", "d", "X"] (fun l => l.map fun _ => [1])).2 =
      StoreOp.clearBank "B" :: StoreOp.embedCall ["a", "b", "c", "d", "X"] ::
        (newRecords "B" ["a", "b", "c", "d", "X"] (fun l => l.map fun _ => [1])).map StoreOp.add ∧
    getRecordsByBank
      (syncBank
        [⟨"B", "a", [1]⟩, ⟨"B", "b", [1]⟩, ⟨"B", "c", [1]⟩, ⟨"B", "d", [1]⟩, ⟨"B", "e", [1]⟩]
        "B" ["a", "b", "c", "d", "X"] (fun l => l.map fun _ => [1])).1 "B" =
      newRecords "B" ["a", "b", "c", "d", "X"] (fun l => l.map fun _ => [1]) ∧
    (newRecords "B" ["a", "b", "c", "d", "X"] (fun l => l.map fun _ => [1])).map (·.text) =
      ["a", "b", "c", "d", "X"] ∧
    ∀ r ∈ newRecords "B" ["a", "b", "c", "d", "X"] (fun l => l.map fun _ => [1]), r.bank = "B" :=
  stale_bank_full_regeneration _ _ _ _ (by decide) (by decide)

/-- Helper: the saved content is the per-line trim of the validated lines. -/
theorem trimmedLines_eq_map (s : String) :
    trimmedLines s = (nonEmptyLines s).map jsTrim := by
  unfold trimmedLines nonEmptyLines
  exact List.filter_map _ _

/-- Helper: the modal's line count equals the saved content's length. -/
theorem trimmedLines_length (s : String) :
    (trimmedLines s).length = (nonEmptyLines s).length := by
  rw [trimmedLines_eq_map, List.length_map]

/-- C7: creating a custom bank with more than 20 non-empty lines is rejected
with an empty operation log (so before any embedding-provider call), while
exactly 20 non-empty lines proceeds to embedding and save; and the limit is
not enforced during synchronization, where a stale bank of more than 20
entries still gets one record per entry. -/
theorem custom_bank_creation_limit (bankName inputText : String)
    (banks : List String) (embed : List String → List (List ℚ))
    (hname : jsTrim bankName ≠ "")
    (hdup : ((banks.map jsToLower).contains (jsToLower (jsTrim bankName))) = false) :
    ((nonEmptyLines inputText).length > 20 →
      createCustomBank bankName inputText banks embed =
        (.rejected "You can add a maximum of 20 facts.", [])) ∧
    ((nonEmptyLines inputText).length = 20 → embed (trimmedLines inputText) ≠ [] →
      createCustomBank bankName inputText banks embed =
        (.saved (jsTrim bankName) (trimmedLines inputText),
          StoreOp.embedCall (trimmedLines inputText) ::
            StoreOp.saveBank (jsTrim bankName) (trimmedLines inputText) ::
              (trimmedLines inputText).enum.map fun p =>
                StoreOp.add ⟨jsTrim bankName, p.2, (embed (trimmedLines inputText)).getD p.1 []⟩)) ∧
    (∀ (store : List MemRecord) (bank : String) (content : List String),
      20 < content.length →
      needsGeneration (getRecordsByBank store bank) content = true →
      embed content ≠ [] →
      (getRecordsByBank (syncBank store bank content embed).1 bank).length = content.length) := by
  have hdup' : ¬ ∃ a ∈ banks, jsToLower a = jsToLower (jsTrim bankName) := by
    rintro ⟨b, hb, he⟩
    have hm : jsToLower (jsTrim bankName) ∈ banks.map jsToLower :=
      List.mem_map.mpr ⟨b, hb, he⟩
    have : (banks.map jsToLower).contains (jsToLower (jsTrim bankName)) = true :=
      List.elem_iff.mpr hm
    rw [hdup] at this
    exact Bool.false_ne_true this
  refine ⟨?_, ?_, ?_⟩
  · intro hgt
    have h0 : ¬ (nonEmptyLines inputText).length = 0 := by omega
    simp [createCustomBank, handleSave, hname, hdup', h0, hgt]
  · intro h20 hne
    have h0 : ¬ (nonEmptyLines inputText).length = 0 := by omega
    have hngt : ¬ (nonEmptyLines inputText).length > 20 := by omega
    have hc0 : ¬ (trimmedLines inputText).length = 0 := by
      rw [trimmedLines_length]; omega
    have hemp : (embed (trimmedLines inputText)).isEmpty = false := by
      cases h : embed (trimmedLines inputText) with
      | nil => exact absurd h hne
      | cons a l => rfl
    simp [createCustomBank, handleSave, hname, hdup', h0, hngt, handleSaveCustomBank, hc0, hemp]
  · intro store bank content h20 hst hne
    have hemp : (embed content).isEmpty = false := by
      cases h : embed content with
      | nil => exact absurd h hne
      | cons a l => rfl
    simp only [syncBank, hst, hemp, if_true, Bool.false_eq_true, if_false]
    unfold getRecordsByBank
    rw [List.filter_append]
    have h1 := getRecordsByBank_filter_out store bank
    have h2 := getRecordsByBank_newRecords bank content embed
    unfold getRecordsByBank at h1 h2
    rw [h1, h2, List.nil_append]
    exact newRecords_length bank content embed

/-- Witness for C7: 21 one-character lines are rejected without effects,
20 lines are embedded and saved, and a 21-entry bank synchronizes fully. -/
theorem custom_bank_creation_limit_witness :
    createCustomBank "Facts" "a\na\na\na\na\na\na\na\na\na\na\na\na\na\na\na\na\na\na\na\na"
        ["General", "Programming", "Science"] (fun l : List String => l.map fun _ => ([1] : List ℚ)) =
      (.rejected "You can add a maximum of 20 facts.", []) ∧
    createCustomBank "Facts" "a\na\na\na\na\na\na\na\na\na\na\na\na\na\na\na\na\na\na\na"
        ["General", "Programming", "Science"] (fun l : List String => l.map fun _ => ([1] : List ℚ)) =
      (.saved (jsTrim "Facts") (trimmedLines "a\na\na\na\na\na\na\na\na\na\na\na\na\na\na\na\na\na\na\na"),
        StoreOp.embedCall (trimmedLines "a\na\na\na\na\na\na\na\na\na\na\na\na\na\na\na\na\na\na\na") ::
          StoreOp.saveBank (jsTrim "Facts") (trimmedLines "a\na\na\na\na\na\na\na\na\na\na\na\na\na\na\na\na\na\na\na") ::
            (trimmedLines "a\na\na\na\na\na\na\na\na\na\na\na\na\na\na\na\na\na\na\na").enum.map fun p =>
              StoreOp.add ⟨jsTrim "Facts", p.2,
                ((fun l : List String => l.map fun _ => ([1] : List ℚ)) (trimmedLines "a\na\na\na\na\na\na\na\na\na\na\na\na\na\na\na\na\na\na\na")).getD p.1 []⟩) ∧
    (getRecordsByBank
      (syncBank [] "B"
        ["a","a","a","a","a","a","a","a","a","a","a","a","a","a","a","a","a","a","a","a","a"]
        (fun l : List String => l.map fun _ => ([1] : List ℚ))).1 "B").length =
      (["a","a","a","a","a","a","a","a","a","a","a","a","a","a","a","a","a","a","a","a","a"] : List String).length :=
  ⟨(custom_bank_creation_limit "Facts"
      "a\na\na\na\na\na\na\na\na\na\na\na\na\na\na\na\na\na\na\na\na"
      ["General", "Programming", "Science"] (fun l : List String => l.map fun _ => ([1] : List ℚ))
      (by decide) (by decide)).1 (by decide),
   (custom_bank_creation_limit "Facts"
      "a\na\na\na\na\na\na\na\na\na\na\na\na\na\na\na\na\na\na\na"
      ["General", "Programming", "Science"] (fun l : List String => l.map fun _ => ([1] : List ℚ))
      (by decide) (by decide)).2.1 (by decide) (by decide),
   (custom_bank_creation_limit "Facts" "x"
      ["General", "Programming", "Science"] (fun l : List String => l.map fun _ => ([1] : List ℚ))
      (by decide) (by decide)).2.2 [] "B"
      ["a","a","a","a","a","a","a","a","a","a","a","a","a","a","a","a","a","a","a","a","a"]
      (by decide) (by decide) (by decide)⟩

/-- Helper: the modal accepting `tn` means no available bank matches it
case-insensitively. -/
theorem accepted_no_case_clash {banks : List String} {name text tn txt : String}
    (heq : handleSave name text (banks.map jsToLower) = .accepted tn txt) :
    ¬ ∃ a ∈ banks, jsToLower a = jsToLower tn := by
  simp only [handleSave] at heq
  split_ifs at heq with h1 h2 h3 h4
  injection heq with e1 e2
  subst e1
  intro hex
  obtain ⟨b, hbm, hbe⟩ := hex
  exact h2 (List.elem_iff.mpr (List.mem_map.mpr ⟨b, hbm, hbe⟩))

/-- Helper: every reachable joint state keeps `availableBanks` pairwise
distinct up to case, the persisted names pairwise distinct up to case and
clash-free with the built-ins, contained in `availableBanks`, and the
built-ins present — so a restart's rebuilt list stays distinct too. -/
theorem availReachable_invariant :
    ∀ banks db, AvailReachable banks db →
      banks.Pairwise (fun a b => jsToLower a ≠ jsToLower b) ∧
      db.Pairwise (fun a b => jsToLower a ≠ jsToLower b) ∧
      (∀ d ∈ db, ∀ b ∈ builtinBanks, jsToLower d ≠ jsToLower b) ∧
      (∀ d ∈ db, d ∈ banks) ∧
      (∀ b ∈ builtinBanks, b ∈ banks) := by
  intro banks db h
  induction h with
  | init =>
    exact ⟨by decide, List.Pairwise.nil, by simp, by simp, fun b hb => hb⟩
  | @save banks db name text tn txt hb heq ih =>
    obtain ⟨ihb, ihd, ihdb, ihsub, ihbi⟩ := ih
    have hnodup := accepted_no_case_clash heq
    have htn_db : ¬ db.contains tn = true := by
      intro hc
      exact hnodup ⟨tn, ihsub tn (List.elem_iff.mp hc), rfl⟩
    have hput : putName db tn = db ++ [tn] := by
      unfold putName
      rw [if_neg htn_db]
    refine ⟨?_, ?_, ?_, ?_, ?_⟩
    · rw [List.pairwise_append]
      refine ⟨ihb, List.pairwise_singleton _ _, ?_⟩
      intro a ha b hbm
      rw [List.mem_singleton] at hbm
      subst hbm
      exact fun he => hnodup ⟨a, ha, he⟩
    · rw [hput, List.pairwise_append]
      refine ⟨ihd, List.pairwise_singleton _ _, ?_⟩
      intro a ha b hbm
      rw [List.mem_singleton] at hbm
      subst hbm
      exact fun he => hnodup ⟨a, ihsub a ha, he⟩
    · intro d hd b hbB
      rw [hput, List.mem_append, List.mem_singleton] at hd
      rcases hd with hd | rfl
      · exact ihdb d hd b hbB
      · exact fun he => hnodup ⟨b, ihbi b hbB, he.symm⟩
    · intro d hd
      rw [hput, List.mem_append, List.mem_singleton] at hd
      rcases hd with hd | rfl
      · exact List.mem_append_left _ (ihsub d hd)
      · exact List.mem_append_right _ (List.mem_singleton_self _)
    · intro b hbB
      exact List.mem_append_left _ (ihbi b hbB)
  | @del banks db d hdB hb ih =>
    obtain ⟨ihb, ihd, ihdb, ihsub, ihbi⟩ := ih
    refine ⟨List.Pairwise.sublist (List.filter_sublist _) ihb,
      List.Pairwise.sublist (List.filter_sublist _) ihd, ?_, ?_, ?_⟩
    · intro x hx b hbB
      exact ihdb x (List.mem_of_mem_filter hx) b hbB
    · intro x hx
      obtain ⟨hxd, hxp⟩ := List.mem_filter.mp hx
      exact List.mem_filter.mpr ⟨ihsub x hxd, hxp⟩
    · intro b hbB
      refine List.mem_filter.mpr ⟨ihbi b hbB, ?_⟩
      simp only [decide_eq_true_eq]
      intro hbd
      exact hdB (hbd ▸ hbB)
  | @restart banks db names hb hperm ih =>
    obtain ⟨ihb, ihd, ihdb, ihsub, ihbi⟩ := ih
    refine ⟨?_, ihd, ihdb, ?_, ?_⟩
    · rw [List.pairwise_append]
      refine ⟨by decide,
        (hperm.pairwise_iff (fun h he => h he.symm)).mpr ihd, ?_⟩
      intro b hbB n hn
      exact fun he => ihdb n (hperm.mem_iff.mp hn) b hbB he.symm
    · intro x hx
      exact List.mem_append_right _ (hperm.mem_iff.mpr hx)
    · intro b hbB
      exact List.mem_append_left _ hbB

/-- C10: a custom-bank name that trims to the empty string, or whose trimmed
name equals an available bank name case-insensitively, is rejected with an
empty operation log (before any save or embedding call); consequently every
reachable `availableBanks` list — through guarded saves, deletions and
restarts that restore the persisted custom banks — is pairwise distinct up
to letter case. -/
theorem bank_names_case_insensitively_unique :
    (∀ (name text : String) (banks : List String)
      (embed : List String → List (List ℚ)), jsTrim name = "" →
      createCustomBank name text banks embed =
        (.rejected "Bank name cannot be empty.", [])) ∧
    (∀ (name text : String) (banks : List String)
      (embed : List String → List (List ℚ)),
      (∃ b ∈ banks, jsToLower b = jsToLower (jsTrim name)) → jsTrim name ≠ "" →
      createCustomBank name text banks embed =
        (.rejected "This name is already taken. Please choose another.", [])) ∧
    (∀ banks db, AvailReachable banks db →
      banks.Pairwise fun a b => jsToLower a ≠ jsToLower b) := by
  refine ⟨?_, ?_, ?_⟩
  · intro name text banks embed h
    simp [createCustomBank, handleSave, h]
  · intro name text banks embed hex h
    simp [createCustomBank, handleSave, h, hex]
  · intro banks db h
    exact (availReachable_invariant banks db h).1

/-- Witness for C10 at concrete names: the case-insensitive clash of
`" general "` with the built-in `"General"`, and the distinctness of a state
reached by saving a custom bank and then restarting, so that the restored
persisted name is merged back after the built-ins. -/
theorem bank_names_case_insensitively_unique_witness :
    createCustomBank "   " "a" ["General"] (fun _ => [[1]]) =
      (.rejected "Bank name cannot be empty.", []) ∧
    createCustomBank " general " "a" ["General", "Programming", "Science"]
        (fun _ => [[1]]) =
      (.rejected "This name is already taken. Please choose another.", []) ∧
    (["General", "Programming", "Science", "Fun Facts"] : List String).Pairwise
      (fun a b => jsToLower a ≠ jsToLower b) :=
  ⟨bank_names_case_insensitively_unique.1 "   " "a" ["General"] (fun _ => [[1]]) (by decide),
   bank_names_case_insensitively_unique.2.1 " general " "a"
     ["General", "Programming", "Science"] (fun _ => [[1]])
     ⟨"General", by decide, by decide⟩ (by decide),
   bank_names_case_insensitively_unique.2.2 (builtinBanks ++ ["Fun Facts"])
     ["Fun Facts"]
     (AvailReachable.restart
       (@AvailReachable.save builtinBanks [] "Fun Facts" "a" "Fun Facts" "a"
         AvailReachable.init (by decide))
       (List.Perm.refl _))⟩

/-- Helper: insertion only adds the new element. -/
theorem perm_insertDescBy {α : Type} (key : α → ℚ) (x : α) (l : List α) :
    (insertDescBy key x l).Perm (x :: l) := by
  induction l with
  | nil => exact List.Perm.refl _
  | cons y ys ih =>
    unfold insertDescBy
    split
    · exact ((ih.cons y).trans (List.Perm.swap x y ys)).symm.symm
    · exact List.Perm.refl _

/-- Helper: sorting permutes the input. -/
theorem perm_sortDescBy {α : Type} (key : α → ℚ) (l : List α) :
    (sortDescBy key l).Perm l := by
  induction l with
  | nil => exact List.Perm.refl _
  | cons x xs ih => exact (perm_insertDescBy key x (sortDescBy key xs)).trans (ih.cons x)

/-- Helper: insertion preserves descending order. -/
theorem pairwise_insertDescBy {α : Type} (key : α → ℚ) (x : α) (l : List α)
    (h : l.Pairwise fun a b => key b ≤ key a) :
    (insertDescBy key x l).Pairwise fun a b => key b ≤ key a := by
  induction l with
  | nil => exact List.pairwise_singleton _ _
  | cons y ys ih =>
    rw [List.pairwise_cons] at h
    unfold insertDescBy
    split
    · next hlt =>
      rw [List.pairwise_cons]
      refine ⟨?_, ih h.2⟩
      intro z hz
      have hz0 := (perm_insertDescBy key x ys).mem_iff.mp hz
      rcases List.mem_cons.mp hz0 with hz' | hz'
      · subst hz'; exact le_of_lt hlt
      · exact h.1 z hz'
    · next hge =>
      rw [List.pairwise_cons]
      refine ⟨?_, List.pairwise_cons.mpr h⟩
      intro z hz
      rcases List.mem_cons.mp hz with hz' | hz'
      · subst hz'; exact le_of_not_lt hge
      · exact le_trans (h.1 z hz') (le_of_not_lt hge)

/-- Helper: the sort output is descending in the key. -/
theorem pairwise_sortDescBy {α : Type} (key : α → ℚ) (l : List α) :
    (sortDescBy key l).Pairwise fun a b => key b ≤ key a := by
  induction l with
  | nil => exact List.Pairwise.nil
  | cons x xs ih => exact pairwise_insertDescBy key x _ ih

/-- Helper: insertion goes in front of every element of equal key, so each
equal-key class keeps its order. -/
theorem filter_insertDescBy {α : Type} (key : α → ℚ) (x : α) (l : List α) (s : ℚ) :
    (insertDescBy key x l).filter (fun a => key a == s) =
      if key x == s then x :: l.filter (fun a => key a == s)
      else l.filter (fun a => key a == s) := by
  induction l with
  | nil =>
    unfold insertDescBy
    rcases h : key x == s with _ | _ <;> simp [List.filter, h]
  | cons y ys ih =>
    unfold insertDescBy
    split
    · next hlt =>
      rcases hx : key x == s with _ | _
      · rcases hy : key y == s with _ | _ <;> simp [List.filter, hy, ih, hx]
      · have hy : (key y == s) = false := by
          have : key x = s := by simpa using hx
          have : key y ≠ s := by
            rw [← this]
            exact ne_of_gt hlt
          simpa using this
        simp [List.filter, hy, ih, hx]
    · next hge =>
      rcases hx : key x == s with _ | _ <;> simp [List.filter, hx]

/-- Helper: sorting preserves each equal-key class in order (stability). -/
theorem filter_sortDescBy {α : Type} (key : α → ℚ) (l : List α) (s : ℚ) :
    (sortDescBy key l).filter (fun a => key a == s) =
      l.filter (fun a => key a == s) := by
  induction l with
  | nil => rfl
  | cons x xs ih =>
    show (insertDescBy key x (sortDescBy key xs)).filter _ = _
    rw [filter_insertDescBy]
    rcases hx : key x == s with _ | _ <;> simp [List.filter, hx, ih]

/-- C8: the search ranking scores every record of the bank with the cosine
similarity to the query (the output is a permutation of the scored list),
sorted descending by score, with equal-score records kept in their original
positional order (for each score value the filtered subsequence is
unchanged). -/
theorem search_ranking_sorted_stable (q : List ℚ) (texts : List String)
    (embs : List (List ℚ)) :
    (handleSearch q texts embs).Perm
      (texts.enum.map fun p => (p.2, cosineSimilarity q (embs.getD p.1 []))) ∧
    (handleSearch q texts embs).Pairwise (fun a b => b.2 ≤ a.2) ∧
    ∀ s : ℚ, (handleSearch q texts embs).filter (fun p => p.2 == s) =
      (texts.enum.map fun p => (p.2, cosineSimilarity q (embs.getD p.1 []))).filter
        (fun p => p.2 == s) :=
  ⟨perm_sortDescBy _ _, pairwise_sortDescBy _ _, fun s => filter_sortDescBy _ _ s⟩

/-- Helper: a fold of `max` dominates its seed and every element. -/
theorem le_foldl_max (xs : List ℚ) : ∀ a : ℚ,
    a ≤ xs.foldl max a ∧ ∀ x ∈ xs, x ≤ xs.foldl max a := by
  induction xs with
  | nil => intro a; exact ⟨le_refl a, by simp⟩
  | cons y ys ih =>
    intro a
    have h := ih (max a y)
    refine ⟨le_trans (le_max_left a y) h.1, ?_⟩
    intro x hx
    rcases List.mem_cons.mp hx with rfl | hx'
    · exact le_trans (le_max_right a x) h.1
    · exact h.2 x hx'

/-- Helper: a fold of `max` is the seed or an element. -/
theorem foldl_max_choice (xs : List ℚ) : ∀ a : ℚ,
    xs.foldl max a = a ∨ xs.foldl max a ∈ xs := by
  induction xs with
  | nil => intro a; exact Or.inl rfl
  | cons y ys ih =>
    intro a
    rcases ih (max a y) with h | h
    · rcases max_choice a y with he | he
      · exact Or.inl (by rw [List.foldl_cons, h, he])
      · refine Or.inr ?_
        rw [List.foldl_cons, h, he]
        exact List.mem_cons_self y ys
    · exact Or.inr (List.mem_cons_of_mem y h)

/-- Helper: `Math.max` of a nonempty list is an element. -/
theorem maxQ_mem : ∀ {l : List ℚ}, l ≠ [] → maxQ l ∈ l
  | [], h => absurd rfl h
  | x :: xs, _ => by
    show xs.foldl max x ∈ x :: xs
    rcases foldl_max_choice xs x with h' | h'
    · rw [h']; exact List.mem_cons_self x xs
    · exact List.mem_cons_of_mem x h'

/-- Helper: `Math.max` dominates every element. -/
theorem le_maxQ : ∀ {l : List ℚ} (x : ℚ), x ∈ l → x ≤ maxQ l
  | y :: ys, x, hx => by
    show x ≤ ys.foldl max y
    rcases List.mem_cons.mp hx with rfl | h
    · exact (le_foldl_max ys x).1
    · exact (le_foldl_max ys y).2 x h

/-- Helper: only the empty candidate list has no best candidate. -/
theorem eq_nil_of_bestCand_eq_none :
    ∀ {l : List (ℕ × ℚ)}, bestCand l = none → l = []
  | [], _ => rfl
  | c :: cs, h => by
    exfalso
    unfold bestCand at h
    cases hb : bestCand cs with
    | none => rw [hb] at h; simp at h
    | some b => rw [hb] at h; dsimp at h; split at h <;> simp at h

/-- Helper: the best candidate is a candidate. -/
theorem bestCand_mem : ∀ {l : List (ℕ × ℚ)} {c}, bestCand l = some c → c ∈ l := by
  intro l
  induction l with
  | nil => intro c h; simp [bestCand] at h
  | cons d ds ih =>
    intro c h
    unfold bestCand at h
    cases hb : bestCand ds with
    | none =>
      rw [hb] at h
      dsimp at h
      injection h with h
      subst h
      exact List.mem_cons_self _ _
    | some b =>
      rw [hb] at h
      dsimp at h
      split at h
      · injection h with h
        subst h
        exact List.mem_cons_of_mem _ (ih hb)
      · injection h with h
        subst h
        exact List.mem_cons_self _ _

/-- Helper: the best candidate's similarity dominates every candidate. -/
theorem bestCand_le : ∀ {l : List (ℕ × ℚ)} {c},
    bestCand l = some c → ∀ d ∈ l, d.2 ≤ c.2 := by
  intro l
  induction l with
  | nil => intro c h; simp [bestCand] at h
  | cons e ds ih =>
    intro c h d hd
    unfold bestCand at h
    cases hb : bestCand ds with
    | none =>
      have hds : ds = [] := eq_nil_of_bestCand_eq_none hb
      rw [hb] at h
      dsimp at h
      injection h with h
      subst h
      subst hds
      rcases List.mem_cons.mp hd with rfl | hd'
      · exact le_refl _
      · exact absurd hd' (by simp)
    | some b =>
      rw [hb] at h
      dsimp at h
      split at h
      · next hgt =>
        injection h with h
        subst h
        rcases List.mem_cons.mp hd with rfl | hd'
        · exact le_of_lt hgt
        · exact ih hb d hd'
      · next hgt =>
        injection h with h
        subst h
        rcases List.mem_cons.mp hd with rfl | hd'
        · exact le_refl _
        · exact le_trans (ih hb d hd') (le_of_not_lt hgt)

/-- Helper: unfolding `connectionsAux` when the scratch copy is empty. -/
theorem connectionsAux_empty (orig : List ℚ) (fuel : ℕ) (work : List ℚ)
    (h : work.isEmpty) : connectionsAux orig (fuel + 1) work = [] := by
  unfold connectionsAux
  rw [if_pos h]

/-- Helper: unfolding `connectionsAux` when the maximum is at the threshold. -/
theorem connectionsAux_break (orig : List ℚ) (fuel : ℕ) (work : List ℚ)
    (h : ¬ work.isEmpty = true) (h2 : maxQ work ≤ 1/10) :
    connectionsAux orig (fuel + 1) work = [] := by
  conv_lhs => unfold connectionsAux
  rw [if_neg h, if_pos h2]

/-- Helper: unfolding `connectionsAux` in the selecting step. -/
theorem connectionsAux_step (orig : List ℚ) (fuel : ℕ) (work : List ℚ)
    (h : ¬ work.isEmpty = true) (h2 : ¬ maxQ work ≤ 1/10) :
    connectionsAux orig (fuel + 1) work =
      orig.indexOf (maxQ work) ::
        connectionsAux orig fuel (work.set (orig.indexOf (maxQ work)) (-1)) := by
  conv_lhs => unfold connectionsAux
  rw [if_neg h, if_neg h2]

/-- Helper: unfolding `connectionsSpecAux` with no candidate left. -/
theorem connectionsSpecAux_none (fuel : ℕ) (cands : List (ℕ × ℚ))
    (h : bestCand cands = none) : connectionsSpecAux (fuel + 1) cands = [] := by
  conv_lhs => unfold connectionsSpecAux
  rw [h]

/-- Helper: unfolding `connectionsSpecAux` at the threshold. -/
theorem connectionsSpecAux_break (fuel : ℕ) (cands : List (ℕ × ℚ)) (c : ℕ × ℚ)
    (h : bestCand cands = some c) (h2 : c.2 ≤ 1/10) :
    connectionsSpecAux (fuel + 1) cands = [] := by
  conv_lhs => unfold connectionsSpecAux
  rw [h]
  show (if c.2 ≤ 1/10 then ([] : List ℕ)
    else c.1 :: connectionsSpecAux fuel (cands.filter fun d => d.1 ≠ c.1)) = []
  rw [if_pos h2]

/-- Helper: unfolding `connectionsSpecAux` in the selecting step. -/
theorem connectionsSpecAux_step (fuel : ℕ) (cands : List (ℕ × ℚ)) (c : ℕ × ℚ)
    (h : bestCand cands = some c) (h2 : ¬ c.2 ≤ 1/10) :
    connectionsSpecAux (fuel + 1) cands =
      c.1 :: connectionsSpecAux fuel (cands.filter fun d => d.1 ≠ c.1) := by
  conv_lhs => unfold connectionsSpecAux
  rw [h]
  show (if c.2 ≤ 1/10 then ([] : List ℕ)
    else c.1 :: connectionsSpecAux fuel (cands.filter fun d => d.1 ≠ c.1)) = _
  rw [if_neg h2]

/-- Helper: under `RowInv`, and with pairwise-distinct row values, the code's
loop and the claim's greedy selection coincide step for step. -/
theorem connectionsAux_eq_specAux (orig : List ℚ) (hnd : orig.Nodup) :
    ∀ (fuel : ℕ) (work : List ℚ) (cands : List (ℕ × ℚ)),
      RowInv orig work cands →
      connectionsAux orig fuel work = connectionsSpecAux fuel cands := by
  intro fuel
  induction fuel with
  | zero => intro work cands _; rfl
  | succ fuel ih =>
    intro work cands hinv
    obtain ⟨hlen, hgen, hpos⟩ := hinv
    by_cases hemp : work.isEmpty
    · have hw : work = [] := List.isEmpty_iff.mp hemp
      have ho : orig.length = 0 := by rw [← hlen, hw]; rfl
      have hcnil : cands = [] := by
        cases cands with
        | nil => rfl
        | cons p ps =>
          obtain ⟨h1, _⟩ := hgen p (List.mem_cons_self p ps)
          omega
      rw [connectionsAux_empty orig fuel work hemp,
        connectionsSpecAux_none fuel cands (by rw [hcnil]; rfl)]
    · have hwne : work ≠ [] := fun h => hemp (by rw [h]; rfl)
      have hm_mem := maxQ_mem hwne
      obtain ⟨iw, hiwq⟩ := List.mem_iff_getElem?.mp hm_mem
      have hiwlt : iw < orig.length := by
        rw [← hlen]
        exact (List.getElem?_eq_some_iff.mp hiwq).1
      -- every candidate value is dominated by the scratch maximum
      have factA : ∀ d ∈ cands, d.2 ≤ maxQ work := by
        intro d hd
        obtain ⟨hd1, hd2⟩ := hgen d hd
        rcases hpos d.1 hd1 with ⟨_, hww⟩ | ⟨hno, _⟩
        · exact hd2 ▸ le_maxQ _ (List.getElem?_mem hww)
        · exact absurd hd (by
            intro hmem
            exact hno d.2 (by simpa using hmem))
      -- the scratch maximum is -1 or a candidate value
      have factB : maxQ work = -1 ∨ ∃ d ∈ cands, maxQ work = d.2 := by
        rcases hpos iw hiwlt with ⟨hmem, hww⟩ | ⟨_, hww⟩
        · refine Or.inr ⟨(iw, orig[iw]), hmem, ?_⟩
          rw [hww] at hiwq
          exact (Option.some.injEq _ _ ▸ hiwq.symm)
        · rw [hww] at hiwq
          injection hiwq with h
          exact Or.inl h.symm
      cases hb : bestCand cands with
      | none =>
        have hcnil := eq_nil_of_bestCand_eq_none hb
        subst hcnil
        have hm1 : maxQ work = -1 := by
          rcases factB with h | ⟨d, hd, _⟩
          · exact h
          · exact absurd hd (by simp)
        rw [connectionsAux_break orig fuel work hemp (by rw [hm1]; norm_num),
          connectionsSpecAux_none fuel [] rfl]
      | some c =>
        have hc_mem := bestCand_mem hb
        have hc_ub := bestCand_le hb
        obtain ⟨hc1, hc2⟩ := hgen c hc_mem
        have hcfirst : (c.1, orig[c.1]) ∈ cands ∧ work[c.1]? = some orig[c.1] := by
          rcases hpos c.1 hc1 with h | h
          · exact h
          · exact absurd hc_mem (by
              intro hmem
              exact h.1 c.2 (by simpa using hmem))
        have hcw : c.2 ∈ work := by
          rw [hc2]
          exact List.getElem?_mem hcfirst.2
        have hcle : c.2 ≤ maxQ work := le_maxQ _ hcw
        have hmchoice : maxQ work = -1 ∨ maxQ work ≤ c.2 := by
          rcases factB with h | ⟨d, hd, he⟩
          · exact Or.inl h
          · exact Or.inr (he ▸ hc_ub d hd)
        by_cases hth : c.2 ≤ 1/10
        · have hmth : maxQ work ≤ 1/10 := by
            rcases hmchoice with h | h
            · rw [h]; norm_num
            · exact le_trans h hth
          rw [connectionsAux_break orig fuel work hemp hmth,
            connectionsSpecAux_break fuel cands c hb hth]
        · have hgt : ¬ maxQ work ≤ 1/10 := fun h => hth (le_trans hcle h)
          have hmeq : maxQ work = c.2 := by
            refine le_antisymm ?_ hcle
            rcases hmchoice with h | h
            · exact absurd (by rw [h]; norm_num : maxQ work ≤ 1/10) hgt
            · exact h
          have hidx : orig.indexOf (maxQ work) = c.1 := by
            rw [hmeq, hc2]
            exact List.indexOf_getElem hnd c.1 hc1
          rw [connectionsAux_step orig fuel work hemp hgt,
            connectionsSpecAux_step fuel cands c hb hth, hidx]
          refine congrArg (List.cons c.1) (ih _ _ ⟨?_, ?_, ?_⟩)
          · rw [List.length_set]; exact hlen
          · intro p hp
            exact hgen p (List.mem_of_mem_filter hp)
          · intro i hi
            by_cases hic : i = c.1
            · subst hic
              refine Or.inr ⟨?_, ?_⟩
              · intro v hv
                have := (List.mem_filter.mp hv).2
                simp at this
              · rw [List.getElem?_set_self (by rw [hlen]; exact hi)]
            · rcases hpos i hi with ⟨hmem, hw⟩ | ⟨hnmem, hw⟩
              · refine Or.inl ⟨?_, ?_⟩
                · exact List.mem_filter.mpr ⟨hmem, by simpa using hic⟩
                · rw [List.getElem?_set_ne (fun h => hic h.symm)]
                  exact hw
              · refine Or.inr ⟨?_, ?_⟩
                · exact fun v hv => hnmem v (List.mem_of_mem_filter hv)
                · rw [List.getElem?_set_ne (fun h => hic h.symm)]
                  exact hw

/-- Helper: on a row of pairwise-distinct similarities the code's connection
list equals the claim's greedy selection. -/
theorem connections_eq_spec_of_nodup (row : List ℚ) (h : row.Nodup) :
    connections row = connectionsSpec row := by
  refine connectionsAux_eq_specAux row h 3 row row.enum ⟨rfl, ?_, ?_⟩
  · intro p hp
    have hp' := List.mem_enum_iff_getElem?.mp hp
    obtain ⟨hlt, hv⟩ := List.getElem?_eq_some_iff.mp hp'
    exact ⟨hlt, hv.symm⟩
  · intro i hi
    refine Or.inl ⟨?_, List.getElem?_eq_some_iff.mpr ⟨hi, rfl⟩⟩
    exact List.mem_enum_iff_getElem?.mpr (List.getElem?_eq_some_iff.mpr ⟨hi, rfl⟩)

theorem ratSqrt_one : Rat.sqrt 1 = 1 := by
  simp [Rat.sqrt]

theorem cos_unit : cosineSimilarity [1, 0] [1, 0] = 1 := by
  have hn : normSq [1, 0] = 1 := by norm_num [normSq, dot]
  unfold cosineSimilarity
  rw [hn]
  norm_num [dot, ratSqrt_one]

theorem simRow_tie : simRow [[1, 0], [1, 0], [1, 0]] 0 = [0, 1, 1] := by
  simp [simRow, List.enum, List.enumFrom, cos_unit]

theorem maxQ_tie1 : maxQ [0, 1, 1] = 1 := by
  norm_num [maxQ, List.foldl, max_def]

theorem maxQ_tie2 : maxQ [0, -1, 1] = 1 := by
  norm_num [maxQ, List.foldl, max_def]

theorem idx_tie : List.indexOf (1 : ℚ) [0, 1, 1] = 1 := by
  norm_num [List.indexOf_cons]

theorem connections_tie : connections [0, 1, 1] = [1, 1, 1] := by
  unfold connections
  rw [connectionsAux_step [0, 1, 1] 2 [0, 1, 1] (by decide)
      (by rw [maxQ_tie1]; norm_num), maxQ_tie1, idx_tie]
  show (1 : ℕ) :: connectionsAux [0, 1, 1] 2 [0, -1, 1] = [1, 1, 1]
  rw [connectionsAux_step [0, 1, 1] 1 [0, -1, 1] (by decide)
      (by rw [maxQ_tie2]; norm_num), maxQ_tie2, idx_tie]
  show (1 : ℕ) :: 1 :: connectionsAux [0, 1, 1] 1 [0, -1, 1] = [1, 1, 1]
  rw [connectionsAux_step [0, 1, 1] 0 [0, -1, 1] (by decide)
      (by rw [maxQ_tie2]; norm_num), maxQ_tie2, idx_tie]
  rfl

theorem bestCand_tie1 : bestCand [(0, (0 : ℚ)), (1, 1), (2, 1)] = some (1, 1) := by
  norm_num [bestCand]

theorem bestCand_tie2 : bestCand [(0, (0 : ℚ)), (2, 1)] = some (2, 1) := by
  norm_num [bestCand]

theorem bestCand_tie3 : bestCand [(0, (0 : ℚ))] = some (0, 0) := by
  norm_num [bestCand]

theorem connectionsSpec_tie : connectionsSpec [0, 1, 1] = [1, 2] := by
  unfold connectionsSpec
  show connectionsSpecAux 3 [(0, (0 : ℚ)), (1, 1), (2, 1)] = [1, 2]
  rw [connectionsSpecAux_step 2 _ _ bestCand_tie1 (by norm_num)]
  show (1 : ℕ) :: connectionsSpecAux 2
    ([(0, (0 : ℚ)), (1, 1), (2, 1)].filter fun d => d.1 ≠ 1) = [1, 2]
  have hf1 : ([(0, (0 : ℚ)), (1, 1), (2, 1)].filter fun d => d.1 ≠ 1) =
      [(0, (0 : ℚ)), (2, 1)] := by
    simp
  rw [hf1, connectionsSpecAux_step 1 _ _ bestCand_tie2 (by norm_num)]
  show (1 : ℕ) :: 2 :: connectionsSpecAux 1
    ([(0, (0 : ℚ)), (2, 1)].filter fun d => d.1 ≠ 2) = [1, 2]
  have hf2 : ([(0, (0 : ℚ)), (2, 1)].filter fun d => d.1 ≠ 2) = [(0, (0 : ℚ))] := by
    simp
  rw [hf2, connectionsSpecAux_break 0 _ _ bestCand_tie3 (by norm_num)]

theorem simRow_pair : simRow [[1, 0], [1, 0]] 0 = [0, 1] := by
  simp [simRow, List.enum, List.enumFrom, cos_unit]

/-- C2 (amended): each node's neighbor list is built by up to 3 rounds of
taking the maximum remaining similarity of a scratch copy, stopping at the
0.1 threshold, and appending the index of the FIRST occurrence of that value
in the ORIGINAL row while clearing only that slot of the scratch copy; when
all similarities in the node's row are pairwise distinct this coincides
exactly with the claimed greedy procedure (select the maximum remaining
candidate, lowest index first, append above the threshold, remove it, at
most K = 3 times).  With tied similarities the code re-selects the lowest
tied index instead of removing it — see the counterexample. -/
theorem neighbor_selection_distinct_rows (embs : List (List ℚ)) (id : ℕ)
    (h : (simRow embs id).Nodup) :
    connections (simRow embs id) = connectionsSpec (simRow embs id) :=
  connections_eq_spec_of_nodup _ h

/-- Witness for the amended C2 at two embedding vectors whose similarity row
`[0, 1]` has pairwise-distinct values. -/
theorem neighbor_selection_distinct_rows_witness :
    connections (simRow [[1, 0], [1, 0]] 0) =
      connectionsSpec (simRow [[1, 0], [1, 0]] 0) :=
  neighbor_selection_distinct_rows [[1, 0], [1, 0]] 0
    (by rw [simRow_pair]; decide)

/-- Counterexample to C2 as stated: with three identical embedding vectors,
node 0's two candidates tie at similarity 1 and the code appends index 1
three times — the selected candidate is not removed from consideration, and
index 2 is never selected — while the claimed greedy procedure yields
`[1, 2]`. -/
theorem neighbor_selection_tie_counterexample :
    connections (simRow [[1, 0], [1, 0], [1, 0]] 0) = [1, 1, 1] ∧
    connectionsSpec (simRow [[1, 0], [1, 0], [1, 0]] 0) = [1, 2] ∧
    connections (simRow [[1, 0], [1, 0], [1, 0]] 0) ≠
      connectionsSpec (simRow [[1, 0], [1, 0], [1, 0]] 0) := by
  rw [simRow_tie, connections_tie, connectionsSpec_tie]
  exact ⟨rfl, rfl, by decide⟩

end QwenSearch
